import Mathlib

/-!
Shallow embedding of the in-memory cache of `memory/memory.go` (package
`memory` of kxrxh/Cachease), together with theorems checking the
natural-language specification against it.

Modelling conventions:
* `time.Time` values are `Int` nanosecond timestamps (`UnixNano`); each
  public operation receives the current time `now` explicitly.  The Go code
  calls `time.Now()` several times inside one operation; we determinise all
  of them to the single `now` of the call.
* The Go `map[string]Elem` is an association list `List (String × Elem α)`
  with the usual map reading (first binding wins; reachable states have
  pairwise distinct keys).  Go's `range` iteration order is unspecified; the
  list order is the one iteration order the model commits to.
* `sync.Pool` gives no guarantee which stored value (if any) a `Get` probe
  returns, and the GC may drop pooled values at any point.  The model keeps
  `pool` as an over-approximation of the pool's possible contents: values
  `Put` into the pool are consed on and never removed (removal only shrinks
  the real pool, so every value the real pool can yield is in the model
  list).  Each operation that calls `pool.Get()` takes the probed result as
  an explicit argument `probe`; `ValidProbe` says the probe is `none` (nil)
  or one of the values the pool may hold.  A pooled `*Elem` pointer is
  `PoolVal.ptr`, a pooled `Elem` value is `PoolVal.val`; the package itself
  only ever stores pointers (`c.pool.Put(&ele)` in `Put`, and the put-back
  in `Remove` of a value obtained from the pool).
* The `lock` field is not carried in the state; instead the one place where
  locking is semantically visible — `RemoveExpired` calling `Remove`, which
  re-acquires the exclusive lock `RemoveExpired` already holds — is modelled
  by returning `none` (the goroutine blocks forever on the non-reentrant
  `sync.RWMutex`).  Likewise `Remove` returns `none` when the unchecked
  type assertion `v.(Elem)` panics on a pooled pointer.
* The `defaultExpiration` field and the janitor/cleaner goroutine are not
  modelled: `Get` and `Put` read the package constant `DEFAULT_EXPIRATION`,
  never the field, and the janitor only ever calls `RemoveExpired`.
* Go `int64` arithmetic is modelled on `Int`; none of the modelled
  quantities can come near `2^63` in the scenarios considered, so wrap-around
  is not modelled (the constant `maxInt64` mirrors the literal
  `1<<(bits.UintSize-1) - 1` on a 64-bit platform).
-/

set_option linter.unusedVariables false
set_option linter.unnecessarySimpa false

namespace Cachease

/-- `DEFAULT_EXPIRATION = 10 * time.Minute` in nanoseconds. -/
def DEFAULT_EXPIRATION : Int := 600000000000

/-- `DEFAULT_CAP = 1024`. -/
def DEFAULT_CAP : Int := 1024

/-- `DEFAULT_LRU_CLEAN_SIZE = 20`. -/
def DEFAULT_LRU_CLEAN_SIZE : Nat := 20

/-- `1<<(bits.UintSize-1) - 1` on a 64-bit platform, the initial `lastTime`
of `removeLeastVisited`. -/
def maxInt64 : Int := 9223372036854775807

/-- Go struct `Elem`: key, value, expiration timestamp, last-hit timestamp.
The value type is an arbitrary `α` (Go `any`). -/
structure Elem (α : Type) where
  K : String
  V : α
  Expiration : Int
  LastHit : Int
  deriving DecidableEq, Repr

/-- A value held by the `sync.Pool`: either a `*Elem` pointer (what `Put`
stores) or a plain `Elem` value (what the comma-ok assertion in `Get` and the
unchecked assertion in `Remove` expect). -/
inductive PoolVal (α : Type) where
  | ptr : Elem α → PoolVal α
  | val : Elem α → PoolVal α
  deriving DecidableEq, Repr

/-- Go struct `Cache` (the fields the semantics depends on; see the header
comment for `lock`, `pool`, `defaultExpiration` and `cleaner`). -/
structure Cache (α : Type) where
  elements : List (String × Elem α)
  capacity : Int
  size : Int
  pool : List (PoolVal α)
  deriving DecidableEq, Repr

variable {α : Type}

/-- Map lookup `c.elements[key]` on the association list. -/
def findElem : List (String × Elem α) → String → Option (Elem α)
  | [], _ => none
  | (k, e) :: rest, key => if k = key then some e else findElem rest key

/-- Map deletion `delete(c.elements, key)`: removes the (unique) binding of
`key`, if any. -/
def eraseKey : List (String × Elem α) → String → List (String × Elem α)
  | [], _ => []
  | (k, e) :: rest, key => if k = key then rest else (k, e) :: eraseKey rest key

/-- The map-lookup part of `Get` (everything after the pool probe): a hit
copies the map value into the local `ele`, assigns the refreshed
`Expiration`/`LastHit` to that copy, and returns `ele.V`.  The copy is never
written back, so the cache state is returned unchanged.  There is no
expiration check. -/
def getFromMap (c : Cache α) (now : Int) (key : String) : Option α × Cache α :=
  let expire := now + DEFAULT_EXPIRATION
  let lastHit := now
  match findElem c.elements key with
  | some ele0 =>
      let ele := { ele0 with Expiration := expire, LastHit := lastHit }
      (some ele.V, c)
  | none => (none, c)

/-- `func (c *Cache) Get(key string) (value any, err error)`.  `probe` is the
result of `c.pool.Get()`.  The comma-ok assertion `ele.(Elem)` succeeds only
on a pooled `Elem` value, never on a `*Elem` pointer or nil; on success with
matching key the pooled value is returned without consulting the map.  The
`error` result is always nil and is dropped from the model. -/
def Get (c : Cache α) (probe : Option (PoolVal α)) (now : Int) (key : String) :
    Option α × Cache α :=
  match probe with
  | some (PoolVal.val item) =>
      if item.K = key then (some item.V, c) else getFromMap c now key
  | _ => getFromMap c now key

/-- `func (c *Cache) update(k, v, expire, lastHit) bool`: on a hit the local
copy `ele` of the map value gets the new value and timestamps assigned, but
the copy is never stored back into the map, so the cache is returned
unchanged in both branches. -/
def update (c : Cache α) (k : String) (v : α) (expire lastHit : Int) :
    Bool × Cache α :=
  match findElem c.elements k with
  | some ele0 =>
      let ele := { ele0 with V := v, Expiration := expire, LastHit := lastHit }
      (true, c)
  | none => (false, c)

/-- Scan state of `removeLeastVisited`: `lastItems` models the fixed
`[20]string` array (length `DEFAULT_LRU_CLEAN_SIZE`, initially all `""`). -/
structure ScanState where
  lastTime : Int
  lastItems : List String
  liCount : Nat
  full : Bool
  deriving DecidableEq, Repr

/-- One iteration of the `for k, v := range c.elements` loop of
`removeLeastVisited`. -/
def scanStep (t : Int) (st : ScanState) (p : String × Elem α) : ScanState :=
  if t < p.2.Expiration then -- `v.Expiration > t`: not expiring
    let atime := p.2.LastHit
    if ¬st.full ∨ atime < st.lastTime then
      -- `lastTime = atime`, then either append at `liCount` or reset slot 0
      if st.liCount < DEFAULT_LRU_CLEAN_SIZE then
        { st with
            lastTime := atime
            lastItems := st.lastItems.set st.liCount p.1
            liCount := st.liCount + 1 }
      else
        { st with
            lastTime := atime
            lastItems := st.lastItems.set 0 p.1
            liCount := 1
            full := true }
    else st
  else st

/-- `func (c *Cache) removeLeastVisited() error`: scans the map once, then
deletes `lastItems[i]` for `i = 0, 1, ...` until the first empty string.
`c.size` is not touched, and the returned error is always nil (dropped). -/
def removeLeastVisited (c : Cache α) (t : Int) : Cache α :=
  let st0 : ScanState :=
    { lastTime := maxInt64
      lastItems := List.replicate DEFAULT_LRU_CLEAN_SIZE ""
      liCount := 0
      full := false }
  let st := c.elements.foldl (scanStep t) st0
  let victims := st.lastItems.takeWhile (fun s => !(s == ""))
  { c with elements := List.foldl eraseKey c.elements victims }

/-- `func (c *Cache) Put(key string, value any) error`.  When `c.size+1 >
c.capacity` the LRU eviction runs first; then `update` is tried; a genuinely
new key is inserted with `K` left at its zero value `""` (the Go literal
`Elem{V: value, Expiration: expire, LastHit: lastHit}` never sets `K`), a
pointer to it is stored in the pool, and `size` is incremented.  The error
result is always nil and is dropped. -/
def Put (c : Cache α) (now : Int) (key : String) (value : α) : Cache α :=
  let expire := now + DEFAULT_EXPIRATION
  let lastHit := now
  let c1 := if c.capacity < c.size + 1 then removeLeastVisited c now else c
  match update c1 key value expire lastHit with
  | (true, c2) => c2
  | (false, c2) =>
      let ele : Elem α := { K := "", V := value, Expiration := expire, LastHit := lastHit }
      { c2 with
          pool := PoolVal.ptr ele :: c2.pool
          elements := (key, ele) :: c2.elements
          size := c2.size + 1 }

/-- The `for k := range c.elements` loop of `Remove`: delete the binding of
`key` and report whether one existed.  `c.size` is not touched. -/
def removeFound (c : Cache α) (key : String) : Bool × Cache α :=
  if (findElem c.elements key).isSome then
    (true, { c with elements := eraseKey c.elements key })
  else
    (false, c)

/-- `func (c *Cache) Remove(key string) (isFound bool, err error)`.  The pool
probe `v := c.pool.Get()` is followed by the unchecked type assertion
`v.(Elem)`: on a pooled `*Elem` pointer this panics, modelled as `none`.  On
a pooled `Elem` value with a different key the value is put back.  The error
result is always nil and is dropped. -/
def Remove (c : Cache α) (probe : Option (PoolVal α)) (key : String) :
    Option (Bool × Cache α) :=
  match probe with
  | some (PoolVal.ptr _) => none
  | some (PoolVal.val ele) =>
      if ele.K ≠ key then
        some (removeFound { c with pool := PoolVal.val ele :: c.pool } key)
      else
        some (removeFound c key)
  | none => some (removeFound c key)

/-- `func (c *Cache) Flush() error`: discards one pool probe (no effect on
the over-approximated pool), replaces the map by a fresh empty one, and does
not touch `c.size`. -/
def Flush (c : Cache α) : Cache α :=
  { c with elements := [] }

/-- `func (c *Cache) RemoveExpired()`: takes the exclusive lock, then for the
first entry with `v.Expiration > 0 && now > v.Expiration` calls `c.Remove(k)`,
which tries to take the same non-reentrant exclusive lock again and blocks
forever (modelled as `none`).  When no entry is expired the loop body never
runs and the call returns with the state unchanged. -/
def RemoveExpired (c : Cache α) (now : Int) : Option (Cache α) :=
  if ∃ p ∈ c.elements, 0 < p.2.Expiration ∧ p.2.Expiration < now then
    none
  else
    some c

/-- `newCache`: fresh state with the given capacity (the janitor goroutine
and the finalizer are outside the model). -/
def newCache (cap : Int) : Cache α :=
  { elements := [], capacity := cap, size := 0, pool := [] }

/-- The probe argument of an operation is valid for the current pool: nil, or
one of the values the pool may hold. -/
def ValidProbe (c : Cache α) (probe : Option (PoolVal α)) : Prop :=
  probe = none ∨ ∃ v ∈ c.pool, probe = some v

/-- Cache states reachable by completed (non-blocked, non-panicked) public
operations from a fresh cache.  `Get` leaves the model state unchanged
(lemma `Get_state`), so it contributes no constructor. -/
inductive Reach : Cache α → Prop
  | init (cap : Int) : Reach (newCache cap)
  | put {c : Cache α} (now : Int) (key : String) (value : α) :
      Reach c → Reach (Put c now key value)
  | removeOk {c c' : Cache α} {probe : Option (PoolVal α)} {key : String} {b : Bool} :
      Reach c → ValidProbe c probe → Remove c probe key = some (b, c') → Reach c'
  | flush {c : Cache α} : Reach c → Reach (Flush c)
  | removeExpiredOk {c c' : Cache α} {now : Int} :
      Reach c → RemoveExpired c now = some c' → Reach c'

/-- Every value the pool of a reachable state may hold is a `*Elem` pointer
whose `K` field was never set. -/
def PoolInv (c : Cache α) : Prop :=
  ∀ v ∈ c.pool, ∃ e : Elem α, v = PoolVal.ptr e ∧ e.K = ""

end Cachease

namespace Cachease

/-! ### General lemmas about the operations -/

/-- `Get` never writes the cache state: the metadata refresh happens on a
local copy of the map value and is lost. -/
theorem Get_state (c : Cache α) (probe : Option (PoolVal α)) (now : Int)
    (key : String) : (Get c probe now key).2 = c := by
  unfold Get getFromMap
  rcases probe with _ | v
  · cases findElem c.elements key <;> rfl
  · rcases v with e | e
    · cases findElem c.elements key <;> rfl
    · by_cases h : e.K = key
      · simp [h]
      · simp only [h, if_false]
        cases findElem c.elements key <;> rfl

/-- `update` never writes the cache state. -/
theorem update_state (c : Cache α) (k : String) (v : α) (expire lastHit : Int) :
    (update c k v expire lastHit).2 = c := by
  unfold update
  cases findElem c.elements k <;> rfl

/-- `removeLeastVisited` only changes `elements`. -/
theorem removeLeastVisited_fields (c : Cache α) (t : Int) :
    (removeLeastVisited c t).capacity = c.capacity ∧
    (removeLeastVisited c t).size = c.size ∧
    (removeLeastVisited c t).pool = c.pool := by
  exact ⟨rfl, rfl, rfl⟩

end Cachease

namespace Cachease

/-! ### Claim C1 -/

/-- C1 (code_bug evidence): `Get` performs no expiration check.  On the
reachable state obtained by `Put "a" 1` at time 0, whose stored entry expired
at `600000000000`, a `Get` at time `10^15` (long after expiry) still returns
the stored value instead of behaving as a miss. -/
theorem c1_get_returns_expired_value :
    (findElem (Put (newCache 2) 0 "a" (1 : Int)).elements "a" =
      some { K := "", V := 1, Expiration := 600000000000, LastHit := 0 }) ∧
    (600000000000 : Int) < 1000000000000000 ∧
    (Get (Put (newCache 2) 0 "a" (1 : Int)) none 1000000000000000 "a").1 = some 1 := by
  refine ⟨by decide, by decide, by decide⟩

/-! ### Claim C2 -/

/-- C2 (code_bug evidence): `removeLeastVisited` deletes map entries but
never decrements `size`, so `size` overshoots `capacity`.  On `NewCache(2)`
followed by `Put "a"`, `Put "b"`, `Put "c"` with distinct keys, the third Put
evicts both earlier entries yet leaves `size = 3 > capacity = 2`. -/
theorem c2_size_exceeds_capacity_after_puts :
    (Put (Put (Put (newCache 2) 0 "a" (1 : Int)) 1 "b" 2) 2 "c" 3).size = 3 ∧
    (Put (Put (Put (newCache 2) 0 "a" (1 : Int)) 1 "b" 2) 2 "c" 3).capacity = 2 := by
  refine ⟨by decide, by decide⟩

/-! ### Claim C3 -/

/-- C3 (code_bug evidence): `Remove` deletes the map entry but does not
decrement `size`: after `Put "a"` and a successful `Remove "a"` the map is
empty while `size` is still 1. -/
theorem c3_remove_leaves_size_unchanged :
    Remove (Put (newCache 2) 0 "a" (1 : Int)) none "a" =
      some (true,
        { elements := []
          capacity := 2
          size := 1
          pool := [PoolVal.ptr { K := "", V := 1, Expiration := 600000000000, LastHit := 0 }] }) := by
  decide

/-! ### Claim C4 -/

/-- C4 (code_bug evidence): the refresh in `Get` is assigned to a local copy
of the map value and lost: after `Put "a"` at time 0 and a hit `Get "a"` at
time 5, the entry still stored in the map keeps `Expiration = 600000000000`
and `LastHit = 0` instead of the refreshed `5 + 600000000000` and `5`. -/
theorem c4_get_does_not_persist_refresh :
    (Get (Put (newCache 2) 0 "a" (1 : Int)) none 5 "a").1 = some 1 ∧
    findElem (Get (Put (newCache 2) 0 "a" (1 : Int)) none 5 "a").2.elements "a" =
      some { K := "", V := 1, Expiration := 600000000000, LastHit := 0 } ∧
    (600000000000 : Int) ≠ 5 + 600000000000 := by
  refine ⟨by decide, by decide, by decide⟩

/-! ### Claim C5 -/

/-- C5 (code_bug evidence): `update` assigns the new value to a local copy of
the map entry and reports `found = true`, so `Put` on an existing key stores
nothing: after `Put "a" 1` and `Put "a" 99`, a lookup still yields 1. -/
theorem c5_put_existing_key_keeps_old_value :
    (Get (Put (Put (newCache 2) 0 "a" (1 : Int)) 1 "a" 99) none 2 "a").1 = some 1 ∧
    findElem (Put (Put (newCache 2) 0 "a" (1 : Int)) 1 "a" 99).elements "a" =
      some { K := "", V := 1, Expiration := 600000000000, LastHit := 0 } := by
  refine ⟨by decide, by decide⟩

/-! ### Claim C6 -/

/-- C6 (code_bug evidence): `RemoveExpired` holds the exclusive lock and
calls `Remove`, which re-acquires that non-reentrant lock; on any state with
an expired entry the call therefore blocks forever (`none`) instead of
terminating with the expired entries deleted. -/
theorem c6_removeExpired_deadlocks_on_expired_entry :
    (findElem (Put (newCache 2) 0 "a" (1 : Int)).elements "a" =
      some { K := "", V := 1, Expiration := 600000000000, LastHit := 0 }) ∧
    (0 : Int) < 600000000000 ∧ (600000000000 : Int) < 1000000000000000 ∧
    RemoveExpired (Put (newCache 2) 0 "a" (1 : Int)) 1000000000000000 = none := by
  refine ⟨by decide, by decide, by decide, by decide⟩

/-! ### Claim C8 -/

/-- C8 (code_bug evidence): `Flush` replaces the map by a fresh empty one (so
a subsequent `Get` of a previously present key misses) but never resets
`size`: after `Put "a"` and `Flush`, `size` is still 1. -/
theorem c8_flush_leaves_size_unchanged :
    (Flush (Put (newCache 2) 0 "a" (1 : Int))).elements = [] ∧
    (Get (Flush (Put (newCache 2) 0 "a" (1 : Int))) none 5 "a").1 = none ∧
    (Flush (Put (newCache 2) 0 "a" (1 : Int))).size = 1 := by
  refine ⟨by decide, by decide, by decide⟩

/-! ### Claim C9 -/

/-- C9 (confirmed): `Remove` is not panic-free.  `Put` of a fresh key places
a `*Elem` pointer into the shared pool, and when the pool probe in `Remove`
yields that pointer the unchecked type assertion `v.(Elem)` panics (modelled
as `none`); `Remove` completes exactly when the probe yields nil or a plain
`Elem` value. -/
theorem c9_remove_panic_characterization :
    (∃ e : Elem Int,
        PoolVal.ptr e ∈ (Put (newCache 2) 0 "a" (1 : Int)).pool ∧
        Remove (Put (newCache 2) 0 "a" (1 : Int)) (some (PoolVal.ptr e)) "b" = none) ∧
    (∀ (c : Cache Int) (e : Elem Int) (key : String),
        Remove c (some (PoolVal.ptr e)) key = none) ∧
    (∀ (c : Cache Int) (key : String), (Remove c none key).isSome = true) ∧
    (∀ (c : Cache Int) (e : Elem Int) (key : String),
        (Remove c (some (PoolVal.val e)) key).isSome = true) := by
  refine ⟨⟨{ K := "", V := 1, Expiration := 600000000000, LastHit := 0 }, by decide, rfl⟩,
    fun c e key => rfl, fun c key => rfl, fun c e key => ?_⟩
  unfold Remove
  by_cases h : e.K ≠ key <;> simp [h]

end Cachease

namespace Cachease

/-! ### Toolkit: `findElem`, `eraseKey`, `takeWhile` -/

theorem length_eraseKey_le (l : List (String × Elem α)) (k : String) :
    (eraseKey l k).length ≤ l.length := by
  induction l with
  | nil => exact Nat.le_refl _
  | cons p rest ih =>
      obtain ⟨k1, e1⟩ := p
      by_cases h : k1 = k
      · simpa [eraseKey, h] using Nat.le_succ rest.length
      · simpa [eraseKey, h] using Nat.succ_le_succ ih

theorem length_le_eraseKey_succ (l : List (String × Elem α)) (k : String) :
    l.length ≤ (eraseKey l k).length + 1 := by
  induction l with
  | nil => exact Nat.le_succ _
  | cons p rest ih =>
      obtain ⟨k1, e1⟩ := p
      by_cases h : k1 = k
      · simp [eraseKey, h]
      · simpa [eraseKey, h] using Nat.succ_le_succ ih

theorem findElem_isSome_of_mem {l : List (String × Elem α)} {k : String}
    {e : Elem α} (h : (k, e) ∈ l) : (findElem l k).isSome = true := by
  induction l with
  | nil => cases h
  | cons p rest ih =>
      obtain ⟨k1, e1⟩ := p
      by_cases hk : k1 = k
      · simp [findElem, hk]
      · rcases List.mem_cons.mp h with heq | hmem
        · cases heq; exact absurd rfl hk
        · simpa [findElem, hk] using ih hmem

theorem length_eraseKey_lt {l : List (String × Elem α)} {k : String}
    (h : (findElem l k).isSome = true) : (eraseKey l k).length < l.length := by
  induction l with
  | nil => simp [findElem] at h
  | cons p rest ih =>
      obtain ⟨k1, e1⟩ := p
      by_cases hk : k1 = k
      · simpa [eraseKey, hk] using Nat.lt_succ_self rest.length
      · have h' : (findElem rest k).isSome = true := by simpa [findElem, hk] using h
        simpa [eraseKey, hk] using Nat.succ_lt_succ (ih h')

theorem findElem_eraseKey_ne (l : List (String × Elem α)) {k k0 : String}
    (h : k ≠ k0) : findElem (eraseKey l k0) k = findElem l k := by
  induction l with
  | nil => rfl
  | cons p rest ih =>
      obtain ⟨k1, e1⟩ := p
      by_cases h1 : k1 = k0
      · have hk1 : k1 ≠ k := by
          rw [h1]; exact fun hh => h hh.symm
        simp [eraseKey, findElem, h1, hk1, Ne.symm h]
      · by_cases h2 : k1 = k <;> simp [eraseKey, findElem, h1, h2, h, Ne.symm h, ih]

theorem foldl_eraseKey_length_le (vs : List String) (l : List (String × Elem α)) :
    (List.foldl eraseKey l vs).length ≤ l.length := by
  induction vs generalizing l with
  | nil => exact Nat.le_refl _
  | cons v rest ih =>
      exact Nat.le_trans (ih (eraseKey l v)) (length_eraseKey_le l v)

theorem length_le_foldl_eraseKey (vs : List String) (l : List (String × Elem α)) :
    l.length ≤ (List.foldl eraseKey l vs).length + vs.length := by
  induction vs generalizing l with
  | nil => simp
  | cons v rest ih =>
      have h1 := length_le_eraseKey_succ l v
      have h2 := ih (eraseKey l v)
      simp only [List.foldl_cons, List.length_cons]
      omega

theorem findElem_foldl_eraseKey_not_mem {vs : List String} {k : String}
    (h : k ∉ vs) (l : List (String × Elem α)) :
    findElem (List.foldl eraseKey l vs) k = findElem l k := by
  induction vs generalizing l with
  | nil => rfl
  | cons v rest ih =>
      have hk : k ≠ v := fun he => h (he ▸ List.mem_cons_self v rest)
      have hrest : k ∉ rest := fun hm => h (List.mem_cons_of_mem v hm)
      simp only [List.foldl_cons]
      rw [ih hrest (eraseKey l v), findElem_eraseKey_ne l hk]

theorem findElem_eq_of_mem_nodup {l : List (String × Elem α)}
    (hnd : (l.map Prod.fst).Nodup) {k : String} {e : Elem α}
    (hm : (k, e) ∈ l) : findElem l k = some e := by
  induction l with
  | nil => cases hm
  | cons p rest ih =>
      obtain ⟨k1, e1⟩ := p
      rcases List.mem_cons.mp hm with heq | hmem
      · cases heq
        simp [findElem]
      · have hk1 : k1 ≠ k := by
          intro hh
          subst hh
          have : k1 ∈ rest.map Prod.fst := List.mem_map.mpr ⟨(k1, e), hmem, rfl⟩
          exact (List.nodup_cons.mp (by simpa using hnd)).1 this
        have hnd' : (rest.map Prod.fst).Nodup := (List.nodup_cons.mp (by simpa using hnd)).2
        simpa [findElem, hk1] using ih hnd' hmem

theorem mem_takeWhile {p : String → Bool} {a : String} :
    ∀ {l : List String}, a ∈ l.takeWhile p → a ∈ l ∧ p a = true := by
  intro l
  induction l with
  | nil => intro h; cases h
  | cons x rest ih =>
      intro h
      rw [List.takeWhile_cons] at h
      by_cases hp : p x = true
      · rw [if_pos hp] at h
        rcases List.mem_cons.mp h with rfl | hm
        · exact ⟨List.mem_cons_self _ _, hp⟩
        · exact ⟨List.mem_cons_of_mem x (ih hm).1, (ih hm).2⟩
      · rw [if_neg hp] at h
        cases h

theorem length_takeWhile_le' (p : String → Bool) :
    ∀ l : List String, (l.takeWhile p).length ≤ l.length := by
  intro l
  induction l with
  | nil => exact Nat.le_refl _
  | cons x rest ih =>
      rw [List.takeWhile_cons]
      by_cases hp : p x = true
      · simpa [hp] using Nat.succ_le_succ ih
      · simp [hp]

end Cachease

namespace Cachease

/-! ### Toolkit: the eviction scan -/

theorem scanStep_skip_expired {t : Int} {p : String × Elem α}
    (h1 : ¬t < p.2.Expiration) (st : ScanState) : scanStep t st p = st := by
  unfold scanStep
  rw [if_neg h1]

theorem scanStep_skip_stale {t : Int} {p : String × Elem α} {st : ScanState}
    (h1 : t < p.2.Expiration) (h2 : ¬(¬st.full ∨ p.2.LastHit < st.lastTime)) :
    scanStep t st p = st := by
  unfold scanStep
  rw [if_pos h1, if_neg h2]

theorem scanStep_append {t : Int} {p : String × Elem α} {st : ScanState}
    (h1 : t < p.2.Expiration) (h2 : ¬st.full ∨ p.2.LastHit < st.lastTime)
    (h3 : st.liCount < DEFAULT_LRU_CLEAN_SIZE) :
    scanStep t st p =
      { st with
          lastTime := p.2.LastHit
          lastItems := st.lastItems.set st.liCount p.1
          liCount := st.liCount + 1 } := by
  unfold scanStep
  rw [if_pos h1, if_pos h2, if_pos h3]

theorem scanStep_reset {t : Int} {p : String × Elem α} {st : ScanState}
    (h1 : t < p.2.Expiration) (h2 : ¬st.full ∨ p.2.LastHit < st.lastTime)
    (h3 : ¬st.liCount < DEFAULT_LRU_CLEAN_SIZE) :
    scanStep t st p =
      { st with
          lastTime := p.2.LastHit
          lastItems := st.lastItems.set 0 p.1
          liCount := 1
          full := true } := by
  unfold scanStep
  rw [if_pos h1, if_pos h2, if_neg h3]

/-- Case split over the four shapes of one scan step. -/
theorem scanStep_cases (t : Int) (st : ScanState) (p : String × Elem α) :
    scanStep t st p = st ∨
    (t < p.2.Expiration ∧
      (scanStep t st p =
        { st with
            lastTime := p.2.LastHit
            lastItems := st.lastItems.set st.liCount p.1
            liCount := st.liCount + 1 } ∨
       scanStep t st p =
        { st with
            lastTime := p.2.LastHit
            lastItems := st.lastItems.set 0 p.1
            liCount := 1
            full := true })) := by
  by_cases h1 : t < p.2.Expiration
  · by_cases h2 : ¬st.full ∨ p.2.LastHit < st.lastTime
    · by_cases h3 : st.liCount < DEFAULT_LRU_CLEAN_SIZE
      · exact Or.inr ⟨h1, Or.inl (scanStep_append h1 h2 h3)⟩
      · exact Or.inr ⟨h1, Or.inr (scanStep_reset h1 h2 h3)⟩
    · exact Or.inl (scanStep_skip_stale h1 h2)
  · exact Or.inl (scanStep_skip_expired h1 st)

theorem scanStep_length (t : Int) (st : ScanState) (p : String × Elem α) :
    (scanStep t st p).lastItems.length = st.lastItems.length := by
  rcases scanStep_cases t st p with h | ⟨_, h | h⟩ <;>
    simp [h, List.length_set]

theorem scan_fold_length (t : Int) :
    ∀ (l : List (String × Elem α)) (st : ScanState),
      (l.foldl (scanStep t) st).lastItems.length = st.lastItems.length := by
  intro l
  induction l with
  | nil => intro st; rfl
  | cons p rest ih =>
      intro st
      simp only [List.foldl_cons]
      rw [ih (scanStep t st p), scanStep_length]

/-- Every non-empty slot of the window after a scan step either was there
before or is the key of a not-yet-expired entry just scanned. -/
theorem scanStep_slots (t : Int) (st : ScanState) (p : String × Elem α)
    {s : String} (hs : s ∈ (scanStep t st p).lastItems) :
    s ∈ st.lastItems ∨ (s = p.1 ∧ t < p.2.Expiration) := by
  rcases scanStep_cases t st p with h | ⟨hexp, h | h⟩
  · rw [h] at hs
    exact Or.inl hs
  · rw [h] at hs
    rcases List.mem_or_eq_of_mem_set hs with hm | hm
    · exact Or.inl hm
    · exact Or.inr ⟨hm, hexp⟩
  · rw [h] at hs
    rcases List.mem_or_eq_of_mem_set hs with hm | hm
    · exact Or.inl hm
    · exact Or.inr ⟨hm, hexp⟩

/-- Soundness of the window over the whole scan, relative to the scanned
association list `L`. -/
theorem scan_fold_slots (t : Int) (L : List (String × Elem α)) :
    ∀ (l : List (String × Elem α)) (st : ScanState),
      (∀ p ∈ l, p ∈ L) →
      (∀ s ∈ st.lastItems, s ≠ "" → ∃ e, (s, e) ∈ L ∧ t < e.Expiration) →
      ∀ s ∈ (l.foldl (scanStep t) st).lastItems, s ≠ "" →
        ∃ e, (s, e) ∈ L ∧ t < e.Expiration := by
  intro l
  induction l with
  | nil =>
      intro st _ hst
      simpa using hst
  | cons p rest ih =>
      intro st hl hst
      simp only [List.foldl_cons]
      apply ih
      · intro q hq
        exact hl q (List.mem_cons_of_mem p hq)
      · intro s hs hne
        rcases scanStep_slots t st p hs with hm | ⟨rfl, hexp⟩
        · exact hst s hm hne
        · exact ⟨p.2, hl p (List.mem_cons_self p rest), hexp⟩

/-- The slot-0 invariant: the head of the window is a non-empty key and the
append counter is positive. -/
def HeadGood (st : ScanState) : Prop :=
  ∃ k0, st.lastItems.head? = some k0 ∧ k0 ≠ "" ∧ 1 ≤ st.liCount

theorem head?_set_succ (l : List String) (n : Nat) (a : String) :
    (l.set (n + 1) a).head? = l.head? := by
  cases l <;> rfl

theorem head?_set_zero {l : List String} (a : String) (h : l ≠ []) :
    (l.set 0 a).head? = some a := by
  cases l with
  | nil => exact absurd rfl h
  | cons x rest => rfl

theorem scanStep_headGood {t : Int} {st : ScanState} {p : String × Elem α}
    (hp : p.1 ≠ "") (hg : HeadGood st) : HeadGood (scanStep t st p) := by
  obtain ⟨k0, hhead, hne, hli⟩ := hg
  have hnil : st.lastItems ≠ [] := by
    intro h
    rw [h] at hhead
    cases hhead
  rcases scanStep_cases t st p with h | ⟨hexp, h | h⟩
  · rw [h]
    exact ⟨k0, hhead, hne, hli⟩
  · rw [h]
    obtain ⟨m, hm⟩ : ∃ m, st.liCount = m + 1 := by
      cases hcount : st.liCount with
      | zero => rw [hcount] at hli; cases hli
      | succ m => exact ⟨m, rfl⟩
    refine ⟨k0, ?_, hne, Nat.le_succ_of_le hli⟩
    simpa [hm, head?_set_succ] using hhead
  · rw [h]
    exact ⟨p.1, head?_set_zero p.1 hnil, hp, Nat.le_refl 1⟩

theorem scan_fold_headGood (t : Int) :
    ∀ (l : List (String × Elem α)) (st : ScanState),
      (∀ p ∈ l, p.1 ≠ "") → HeadGood st →
      HeadGood (l.foldl (scanStep t) st) := by
  intro l
  induction l with
  | nil => intro st _ hg; exact hg
  | cons p rest ih =>
      intro st hl hg
      simp only [List.foldl_cons]
      exact ih (scanStep t st p)
        (fun q hq => hl q (List.mem_cons_of_mem p hq))
        (scanStep_headGood (hl p (List.mem_cons_self p rest)) hg)

/-- Establishing the slot-0 invariant: starting from the initial scan state,
as soon as the scanned list holds a not-yet-expired entry (all keys being
non-empty), the window head ends up a non-empty key. -/
theorem scan_fold_headGood_est (t : Int) :
    ∀ (l : List (String × Elem α)) (st : ScanState),
      (∀ p ∈ l, p.1 ≠ "") →
      st.full = false → st.liCount = 0 → st.lastItems ≠ [] →
      (∃ p ∈ l, t < p.2.Expiration) →
      HeadGood (l.foldl (scanStep t) st) := by
  intro l
  induction l with
  | nil =>
      intro st _ _ _ _ hlive
      simp at hlive
  | cons p rest ih =>
      intro st hl hfull hli hnil hlive
      simp only [List.foldl_cons]
      by_cases h1 : t < p.2.Expiration
      · have h2 : ¬st.full ∨ p.2.LastHit < st.lastTime := by
          rw [hfull]
          exact Or.inl (by simp)
        have h3 : st.liCount < DEFAULT_LRU_CLEAN_SIZE := by
          rw [hli]
          decide
        have hstep := scanStep_append h1 h2 h3
        have hg : HeadGood (scanStep t st p) := by
          rw [hstep]
          refine ⟨p.1, ?_, hl p (List.mem_cons_self p rest), by rw [hli]⟩
          rw [hli]
          exact head?_set_zero p.1 hnil
        exact scan_fold_headGood t rest (scanStep t st p)
          (fun q hq => hl q (List.mem_cons_of_mem p hq)) hg
      · rw [scanStep_skip_expired h1 st]
        have hrest : ∃ q ∈ rest, t < q.2.Expiration := by
          rcases hlive with ⟨q, hq, hqe⟩
          rcases List.mem_cons.mp hq with rfl | hm
          · exact absurd hqe h1
          · exact ⟨q, hm, hqe⟩
        exact ih st (fun q hq => hl q (List.mem_cons_of_mem p hq)) hfull hli hnil hrest

end Cachease

namespace Cachease

/-! ### Toolkit: `update` and `Put` characterizations -/

/-- `update` reports whether the key is present and never changes the state. -/
theorem update_eq (c : Cache α) (k : String) (v : α) (expire lastHit : Int) :
    update c k v expire lastHit = ((findElem c.elements k).isSome, c) := by
  unfold update
  cases h : findElem c.elements k <;> simp

/-- The initial scan state of `removeLeastVisited`. -/
def initScan : ScanState :=
  { lastTime := maxInt64
    lastItems := List.replicate DEFAULT_LRU_CLEAN_SIZE ""
    liCount := 0
    full := false }

/-- Closed form of `Put`: evict if over capacity, then either hit the
(state-preserving) `update` or insert the new entry. -/
theorem Put_eq (c : Cache α) (now : Int) (key : String) (value : α) :
    Put c now key value =
      if (findElem (if c.capacity < c.size + 1 then removeLeastVisited c now
          else c).elements key).isSome then
        (if c.capacity < c.size + 1 then removeLeastVisited c now else c)
      else
        { (if c.capacity < c.size + 1 then removeLeastVisited c now else c) with
            pool := PoolVal.ptr
              { K := "", V := value, Expiration := now + DEFAULT_EXPIRATION,
                LastHit := now } ::
              (if c.capacity < c.size + 1 then removeLeastVisited c now else c).pool
            elements := (key,
              { K := "", V := value, Expiration := now + DEFAULT_EXPIRATION,
                LastHit := now }) ::
              (if c.capacity < c.size + 1 then removeLeastVisited c now else c).elements
            size := (if c.capacity < c.size + 1 then removeLeastVisited c now
              else c).size + 1 } := by
  simp only [Put, update_eq]
  cases h : (findElem (if c.capacity < c.size + 1 then removeLeastVisited c now
      else c).elements key).isSome <;> simp [h]

/-- After any `Put`, the requested key is present in the map (either it
already was — the hit branch stores nothing but removes nothing either — or
the fresh entry was just consed on). -/
theorem put_key_present (c : Cache α) (now : Int) (key : String) (value : α) :
    (findElem (Put c now key value).elements key).isSome = true := by
  rw [Put_eq]
  by_cases h : (findElem (if c.capacity < c.size + 1 then removeLeastVisited c now
      else c).elements key).isSome = true
  · rw [if_pos h]
    exact h
  · rw [if_neg h]
    simp [findElem]

/-! ### Claim C7 -/

/-- C7 (counterexample): a full store holding one not-yet-expired entry on
which eviction removes nothing.  The entry's key is the empty string, so the
deletion loop of `removeLeastVisited` stops at slot 0 (`lastItems[0] == ""`)
and deletes no entry at all, refuting "if the store is non-empty and contains
at least one non-expired entry, eviction removes at least one entry". -/
theorem c7_eviction_removes_nothing_on_empty_key :
    (Put (newCache 1) 0 "" (1 : Int)).elements.length = 1 ∧
    (∀ p ∈ (Put (newCache 1) 0 "" (1 : Int)).elements, (1 : Int) < p.2.Expiration) ∧
    (removeLeastVisited (Put (newCache 1) 0 "" (1 : Int)) 1).elements.length = 1 := by
  refine ⟨by decide, by decide, by decide⟩

/-- C7 (amended): when all keys are non-empty strings, a scan over a store
with at least one not-yet-expired entry removes at least one entry; eviction
removes at most `DEFAULT_LRU_CLEAN_SIZE` (20) entries and only
not-yet-expired ones (entries already expired at scan time survive
unchanged); and `Put` always leaves the requested key present. -/
theorem c7_bounded_eviction (c : Cache α) (t : Int)
    (hnd : (c.elements.map Prod.fst).Nodup)
    (hkeys : ∀ p ∈ c.elements, p.1 ≠ "")
    (hlive : ∃ p ∈ c.elements, t < p.2.Expiration) :
    (removeLeastVisited c t).elements.length < c.elements.length ∧
    c.elements.length ≤ (removeLeastVisited c t).elements.length + DEFAULT_LRU_CLEAN_SIZE ∧
    (∀ (k : String) (e : Elem α), findElem c.elements k = some e →
      e.Expiration ≤ t → findElem (removeLeastVisited c t).elements k = some e) ∧
    (∀ (now : Int) (key : String) (value : α),
      (findElem (Put c now key value).elements key).isSome = true) := by
  have hRL : (removeLeastVisited c t).elements =
      List.foldl eraseKey c.elements
        ((c.elements.foldl (scanStep t) initScan).lastItems.takeWhile
          (fun s => !(s == ""))) := rfl
  have hst0slots : ∀ s ∈ initScan.lastItems, s ≠ "" →
      ∃ e : Elem α, (s, e) ∈ c.elements ∧ t < e.Expiration := by
    intro s hs hne
    exact absurd (List.eq_of_mem_replicate hs) hne
  have hsound : ∀ s ∈ (c.elements.foldl (scanStep t) initScan).lastItems, s ≠ "" →
      ∃ e, (s, e) ∈ c.elements ∧ t < e.Expiration :=
    scan_fold_slots t c.elements c.elements initScan (fun p hp => hp) hst0slots
  have hg : HeadGood (c.elements.foldl (scanStep t) initScan) :=
    scan_fold_headGood_est t c.elements initScan hkeys rfl rfl (by decide) hlive
  obtain ⟨k0, hhead, hk0ne, _⟩ := hg
  obtain ⟨tail, htail⟩ :
      ∃ tail, (c.elements.foldl (scanStep t) initScan).lastItems = k0 :: tail := by
    cases hli : (c.elements.foldl (scanStep t) initScan).lastItems with
    | nil =>
        rw [hli] at hhead
        cases hhead
    | cons a tl =>
        rw [hli] at hhead
        simp only [List.head?_cons, Option.some.injEq] at hhead
        exact ⟨tl, by rw [hhead]⟩
  have hvic : (c.elements.foldl (scanStep t) initScan).lastItems.takeWhile
      (fun s => !(s == "")) =
      k0 :: tail.takeWhile (fun s => !(s == "")) := by
    rw [htail, List.takeWhile_cons, if_pos]
    simpa using hk0ne
  obtain ⟨e0, he0mem, he0live⟩ :=
    hsound k0 (htail ▸ List.mem_cons_self k0 tail) hk0ne
  have hk0find : (findElem c.elements k0).isSome = true := findElem_isSome_of_mem he0mem
  refine ⟨?_, ?_, ?_, ?_⟩
  · rw [hRL, hvic]
    simp only [List.foldl_cons]
    calc (List.foldl eraseKey (eraseKey c.elements k0)
            (tail.takeWhile (fun s => !(s == "")))).length
        ≤ (eraseKey c.elements k0).length := foldl_eraseKey_length_le _ _
      _ < c.elements.length := length_eraseKey_lt hk0find
  · have h1 := length_le_foldl_eraseKey
      ((c.elements.foldl (scanStep t) initScan).lastItems.takeWhile
        (fun s => !(s == ""))) c.elements
    have h2 := length_takeWhile_le' (fun s => !(s == ""))
      (c.elements.foldl (scanStep t) initScan).lastItems
    have hlen : (c.elements.foldl (scanStep t) initScan).lastItems.length =
        DEFAULT_LRU_CLEAN_SIZE := by
      rw [scan_fold_length]
      decide
    rw [hRL]
    omega
  · intro k e hke hexp
    have hnotvic : k ∉ (c.elements.foldl (scanStep t) initScan).lastItems.takeWhile
        (fun s => !(s == "")) := by
      intro hmem
      obtain ⟨hin, hpk⟩ := mem_takeWhile hmem
      have hkne : k ≠ "" := by
        intro hk
        rw [hk] at hpk
        simp at hpk
      obtain ⟨e', he'mem, he'live⟩ := hsound k hin hkne
      have hfind' : findElem c.elements k = some e' := findElem_eq_of_mem_nodup hnd he'mem
      rw [hke] at hfind'
      injection hfind' with hee
      exact absurd he'live (not_lt.mpr (hee ▸ hexp))
    rw [hRL, findElem_foldl_eraseKey_not_mem hnotvic]
    exact hke
  · intro now key value
    exact put_key_present c now key value

/-- Concrete store for the witness of `c7_bounded_eviction`: two non-expired
entries with distinct non-empty keys. -/
def evictWitnessCache : Cache Int :=
  { elements :=
      [("a", { K := "", V := 1, Expiration := 10, LastHit := 0 }),
       ("b", { K := "", V := 2, Expiration := 10, LastHit := 5 })]
    capacity := 2
    size := 2
    pool := [] }

theorem c7_bounded_eviction_witness :
    ((evictWitnessCache.elements.map Prod.fst).Nodup ∧
     (∀ p ∈ evictWitnessCache.elements, p.1 ≠ "") ∧
     (∃ p ∈ evictWitnessCache.elements, (3 : Int) < p.2.Expiration)) ∧
    ((removeLeastVisited evictWitnessCache 3).elements.length <
        evictWitnessCache.elements.length ∧
     evictWitnessCache.elements.length ≤
        (removeLeastVisited evictWitnessCache 3).elements.length +
          DEFAULT_LRU_CLEAN_SIZE ∧
     (∀ (k : String) (e : Elem Int), findElem evictWitnessCache.elements k = some e →
        e.Expiration ≤ 3 →
        findElem (removeLeastVisited evictWitnessCache 3).elements k = some e) ∧
     (∀ (now : Int) (key : String) (value : Int),
        (findElem (Put evictWitnessCache now key value).elements key).isSome = true)) :=
  ⟨⟨by decide, by decide, by decide⟩,
    c7_bounded_eviction evictWitnessCache 3 (by decide) (by decide) (by decide)⟩

end Cachease

namespace Cachease

/-! ### Toolkit: pool contents of reachable states -/

theorem evictIf_pool (c : Cache α) (now : Int) :
    (if c.capacity < c.size + 1 then removeLeastVisited c now else c).pool = c.pool := by
  by_cases hc : c.capacity < c.size + 1
  · rw [if_pos hc]
    rfl
  · rw [if_neg hc]

/-- `Put` either leaves the pool alone (hit branch) or conses exactly one
`*Elem` pointer whose `K` field was never set. -/
theorem Put_pool (c : Cache α) (now : Int) (key : String) (value : α) :
    (Put c now key value).pool = c.pool ∨
    (Put c now key value).pool =
      PoolVal.ptr (Elem.mk "" value (now + DEFAULT_EXPIRATION) now) :: c.pool := by
  rw [Put_eq]
  by_cases hf : (findElem (if c.capacity < c.size + 1 then removeLeastVisited c now
      else c).elements key).isSome = true
  · rw [if_pos hf]
    exact Or.inl (evictIf_pool c now)
  · rw [if_neg hf]
    right
    simp [evictIf_pool]

theorem removeFound_pool (c : Cache α) (key : String) :
    (removeFound c key).2.pool = c.pool := by
  unfold removeFound
  split <;> rfl

/-- A completed `Remove` whose pool probe was nil leaves the pool unchanged. -/
theorem remove_pool_none {c c' : Cache α} {key : String} {b : Bool}
    (hrem : Remove c none key = some (b, c')) : c'.pool = c.pool := by
  have h0 : Remove c none key = some (removeFound c key) := rfl
  rw [h0] at hrem
  injection hrem with h1
  have h2 : c' = (removeFound c key).2 := by rw [h1]
  rw [h2, removeFound_pool]

theorem poolInv_put {c : Cache α} (now : Int) (key : String) (value : α)
    (h : PoolInv c) : PoolInv (Put c now key value) := by
  intro v hv
  rcases Put_pool c now key value with hp | hp
  · rw [hp] at hv
    exact h v hv
  · rw [hp] at hv
    rcases List.mem_cons.mp hv with rfl | hm
    · exact ⟨_, rfl, rfl⟩
    · exact h v hm

/-- The pool invariant holds in every reachable state. -/
theorem reach_poolInv {c : Cache α} (h : Reach c) : PoolInv c := by
  induction h with
  | init cap =>
      intro v hv
      cases hv
  | put now key value hc ih =>
      exact poolInv_put now key value ih
  | removeOk hc hvp hrem ih =>
      rcases hvp with rfl | ⟨v, hv, rfl⟩
      · intro w hw
        rw [remove_pool_none hrem] at hw
        exact ih w hw
      · obtain ⟨e, rfl, _⟩ := ih v hv
        simp [Remove] at hrem
  | flush hc ih =>
      intro v hv
      exact ih v hv
  | removeExpiredOk hc hre ih =>
      unfold RemoveExpired at hre
      split at hre
      · cases hre
      · injection hre with h1
        rw [← h1]
        exact ih

/-! ### Claim C10 -/

/-- C10 (confirmed): in every reachable state the pool holds only `*Elem`
pointers whose `K` field was never set, so the comma-ok fast path of `Get`
never fires for any probe the pool can yield, and the value `Get` returns is
exactly the one determined by the `elements` map. -/
theorem c10_pool_fast_path_unreachable (c : Cache α) (h : Reach c)
    (probe : Option (PoolVal α)) (hp : ValidProbe c probe) (now : Int) (key : String) :
    (∀ v ∈ c.pool, ∃ e : Elem α, v = PoolVal.ptr e ∧ e.K = "") ∧
    (Get c probe now key).1 = (getFromMap c now key).1 := by
  have hinv := reach_poolInv h
  refine ⟨hinv, ?_⟩
  rcases hp with rfl | ⟨v, hv, rfl⟩
  · rfl
  · obtain ⟨e, rfl, _⟩ := hinv v hv
    rfl

theorem c10_pool_fast_path_unreachable_witness :
    (∀ v ∈ (Put (newCache 2) 0 "a" (1 : Int)).pool,
        ∃ e : Elem Int, v = PoolVal.ptr e ∧ e.K = "") ∧
    (Get (Put (newCache 2) 0 "a" (1 : Int))
        (some (PoolVal.ptr { K := "", V := 1, Expiration := 600000000000, LastHit := 0 }))
        5 "a").1 =
      (getFromMap (Put (newCache 2) 0 "a" (1 : Int)) 5 "a").1 :=
  c10_pool_fast_path_unreachable (Put (newCache 2) 0 "a" (1 : Int))
    (Reach.put 0 "a" 1 (Reach.init 2))
    (some (PoolVal.ptr { K := "", V := 1, Expiration := 600000000000, LastHit := 0 }))
    (Or.inr ⟨PoolVal.ptr { K := "", V := 1, Expiration := 600000000000, LastHit := 0 },
      by decide, rfl⟩)
    5 "a"

end Cachease
